import Mathlib

/-!
# Verification of `protosym.simplecas`

A shallow embedding of the `protosym` simple CAS: the canonical
(hash-consed) expression tree from `protosym.core.tree`, the generic
evaluator from `protosym.core.evaluate`, and the user-facing facade
`Expr` from `protosym/simplecas.py`, together with proofs of the
behavioural properties stated in the specification.

The repository source provides `src/protosym/simplecas.py` and its test
suite.  The `protosym.core` modules (`tree`, `atom`, `evaluate`) and the
`diff`, `count_ops_graph`, `count_ops_tree` and `from_sympy` operations
are referenced by `simplecas.py` and its tests but their code is not in
the source tree, so those parts are modelled from the specification
(each such definition says so in its doc comment).
-/

namespace Protosym

/-- Decidable equality of `Except`, used to state and check the results
of fallible operations. -/
instance {ε α : Type} [DecidableEq ε] [DecidableEq α] :
    DecidableEq (Except ε α) := fun e1 e2 =>
  match e1, e2 with
  | .ok a, .ok b =>
    if h : a = b then isTrue (by rw [h])
    else isFalse (by intro hh; cases hh; exact h rfl)
  | .error a, .error b =>
    if h : a = b then isTrue (by rw [h])
    else isFalse (by intro hh; cases hh; exact h rfl)
  | .ok _, .error _ => isFalse (by intro hh; cases hh)
  | .error _, .ok _ => isFalse (by intro hh; cases hh)

/-- An atom: a leaf of the canonical expression tree, tagged with its
`AtomType`.  `simplecas.py` declares exactly three atom types
(`Integer = Expr.new_atom("Integer", int)`, `Symbol`, `Function`), so the
atom is one of the three tagged native values.  Distinct constructors
model distinct `AtomType` instances used as dispatch keys. -/
inductive Atom : Type
  | int (n : Int)
  | sym (s : String)
  | fn (s : String)
deriving DecidableEq, Repr

/-- Modelled from the spec: the canonical expression tree of
`protosym.core.tree` (`TreeAtom` / `TreeExpr`), whose code is not under
`src/`.  `CanonicalNode` is a variant of an atom or a call node
`Call(head, args)`.  Hash-consing makes object identity coincide with
structural equality, so canonical nodes are modelled as the structural
values themselves: "the same object" means equality of `TreeExpr`. -/
inductive TreeExpr : Type
  | atom (a : Atom)
  | call (head : TreeExpr) (args : List TreeExpr)
deriving Repr

namespace TreeExpr

mutual

/-- Boolean structural equality on canonical trees. -/
def beq : TreeExpr → TreeExpr → Bool
  | .atom a, .atom b => a == b
  | .call h1 args1, .call h2 args2 => beq h1 h2 && beqList args1 args2
  | _, _ => false

/-- Boolean structural equality on lists of canonical trees. -/
def beqList : List TreeExpr → List TreeExpr → Bool
  | [], [] => true
  | a :: as, b :: bs => beq a b && beqList as bs
  | _, _ => false

end

mutual

theorem beq_iff : ∀ a b : TreeExpr, beq a b = true ↔ a = b
  | .atom a, .atom b => by
    simp [beq, beq_iff_eq]
  | .atom _, .call _ _ => by simp [beq]
  | .call _ _, .atom _ => by simp [beq]
  | .call h1 args1, .call h2 args2 => by
    simp [beq, beq_iff h1 h2, beqList_iff args1 args2]

theorem beqList_iff : ∀ as bs : List TreeExpr, beqList as bs = true ↔ as = bs
  | [], [] => by simp [beqList]
  | [], _ :: _ => by simp [beqList]
  | _ :: _, [] => by simp [beqList]
  | a :: as, b :: bs => by
    simp [beqList, beq_iff a b, beqList_iff as bs]

end

instance : DecidableEq TreeExpr := fun a b =>
  decidable_of_iff (beq a b = true) (beq_iff a b)

/-- `True` exactly on call nodes. -/
def isCall : TreeExpr → Bool
  | .atom _ => false
  | .call _ _ => true

end TreeExpr

/-! ## The simplecas atoms and named expressions

`simplecas.py` lines 252-267: the three atom-type constructors and the
named expressions built from them at module load. -/

/-- `Integer = Expr.new_atom("Integer", int)` applied to a value:
`Integer(n)` wraps the integer atom `n`. -/
def Integer (n : Int) : TreeExpr := .atom (.int n)

/-- `Symbol = Expr.new_atom("Symbol", str)` applied to a name. -/
def Symbol (s : String) : TreeExpr := .atom (.sym s)

/-- `Function = Expr.new_atom("Function", str)` applied to a name. -/
def Function (s : String) : TreeExpr := .atom (.fn s)

/-- `zero = Integer(0)`. -/
def zero : TreeExpr := Integer 0

/-- `one = Integer(1)`. -/
def one : TreeExpr := Integer 1

/-- `negone = Integer(-1)`. -/
def negone : TreeExpr := Integer (-1)

/-- `x = Symbol("x")`. -/
def x : TreeExpr := Symbol "x"

/-- `y = Symbol("y")`. -/
def y : TreeExpr := Symbol "y"

/-- `Pow = Function("pow")`. -/
def Pow : TreeExpr := Function "pow"

/-- `sin = Function("sin")`. -/
def sin : TreeExpr := Function "sin"

/-- `cos = Function("cos")`. -/
def cos : TreeExpr := Function "cos"

/-- `Add = Function("Add")`. -/
def Add : TreeExpr := Function "Add"

/-- `Mul = Function("Mul")`. -/
def Mul : TreeExpr := Function "Mul"

/-- `Expr.__call__(self, *args)`: calling a facade value as a function
builds a call node with that value as head (`Expr(self.rep(*args_rep))`).
The facade is canonicalized 1:1 with its wrapped node, so facade values
are represented by their wrapped `TreeExpr`. -/
def applyE (f : TreeExpr) (args : List TreeExpr) : TreeExpr := .call f args

/-! ## The operator methods of `Expr` (simplecas.py lines 139-195)

Each method is translated at the level of the wrapped canonical node;
operand coercion (`expressify_other`) is modelled separately below. -/

/-- `Expr.__pos__`: `return self`. -/
def exprPos (a : TreeExpr) : TreeExpr := a

/-- `Expr.__neg__`: `return Mul(negone, self)`. -/
def exprNeg (a : TreeExpr) : TreeExpr := applyE Mul [negone, a]

/-- `Expr.__add__`: `return Add(self, other)`. -/
def exprAdd (a b : TreeExpr) : TreeExpr := applyE Add [a, b]

/-- `Expr.__sub__`: `return Add(self, Mul(negone, other))`. -/
def exprSub (a b : TreeExpr) : TreeExpr := applyE Add [a, applyE Mul [negone, b]]

/-- `Expr.__mul__`: `return Mul(self, other)`. -/
def exprMul (a b : TreeExpr) : TreeExpr := applyE Mul [a, b]

/-- `Expr.__truediv__`: `return Mul(self, Pow(other, negone))`. -/
def exprDiv (a b : TreeExpr) : TreeExpr := applyE Mul [a, applyE Pow [b, negone]]

/-- `Expr.__pow__`: `return Pow(self, other)`. -/
def exprPow (a b : TreeExpr) : TreeExpr := applyE Pow [a, b]

/-! ## Operand coercion (`expressify`) and Python binary-operator dispatch

`simplecas.py` lines 46-88.  A binary operator on `Expr` receives either
another `Expr`, a native `int`, or some other Python object; the
decorator `expressify_other` coerces the operand with `expressify` and
returns `NotImplemented` on `ExpressifyError`.  The Python language then
retries the reflected method of the other operand, and raises `TypeError`
only if both return `NotImplemented`. -/

/-- A Python value appearing as the second operand of a binary operation
with an `Expr`: a facade value, a native `int`, or any other object
(identified only by a tag; such objects have no numeric methods that
could resolve an operation with `Expr`). -/
inductive Operand : Type
  | expr (e : TreeExpr)
  | int (n : Int)
  | other (tag : String)
deriving DecidableEq, Repr

/-- `ExpressifyError` raised by `expressify`. -/
inductive ExpressifyError : Type
  | notExpressifiable
deriving DecidableEq, Repr

/-- `expressify(obj)`: an `Expr` is returned as is, an `int` becomes
`Integer(obj)`, anything else raises `ExpressifyError`. -/
def expressify : Operand → Except ExpressifyError TreeExpr
  | .expr e => .ok e
  | .int n => .ok (Integer n)
  | .other _ => .error .notExpressifiable

/-- A binary-operator method of `Expr` as wrapped by `expressify_other`:
given the receiver and the other operand, coerce the operand with
`expressify`; on `ExpressifyError` return `none` (Python's
`NotImplemented`), otherwise apply the underlying method `fwd` with the
receiver first.  A non-`Expr` receiver has no such method, so dispatch
on it yields `none`. -/
def dunderMethod (fwd : TreeExpr → TreeExpr → TreeExpr) :
    Operand → Operand → Option TreeExpr
  | .expr self, other =>
    match expressify other with
    | .ok o => some (fwd self o)
    | .error _ => none
  | _, _ => none

/-- The reflected method (`__radd__` etc.) of `Expr`: the receiver is
the right operand of the original expression, so the coerced operand is
passed to `fwd` first (`__radd__` returns `Add(other, self)`, `__rsub__`
returns `Add(other, Mul(negone, self))`, and so on). -/
def dunderRMethod (fwd : TreeExpr → TreeExpr → TreeExpr) :
    Operand → Operand → Option TreeExpr
  | .expr self, other =>
    match expressify other with
    | .ok o => some (fwd o self)
    | .error _ => none
  | _, _ => none

/-- Python's binary-operator protocol for `a ⊕ b`: try `a.__op__(b)`;
if it returns `NotImplemented` try `b.__rop__(a)`; `none` here means
both failed and the user sees a `TypeError`. -/
def pyBinop (fwd : TreeExpr → TreeExpr → TreeExpr) (a b : Operand) :
    Option TreeExpr :=
  match dunderMethod fwd a b with
  | some r => some r
  | none => dunderRMethod fwd b a

/-! ## The interning cache of `Expr.__new__` (simplecas.py lines 94-114)

`Expr._all_expressions` is a weak dictionary keyed by the wrapped
`TreeExpr`; `Expr.__new__` looks the key up and returns the existing
facade object on a hit, otherwise allocates a fresh object and registers
it.  Python object identity is modelled by an allocation index: the
cache state records which key owns which index, and `next` is the next
fresh index.  (Weak reclamation of unreachable entries is not modelled;
it only removes entries and never affects the results below.) -/

/-- The state of the `Expr._all_expressions` cache: an association from
structural keys to allocated object identities, with the next fresh
identity. -/
structure InternState : Type where
  table : List (TreeExpr × Nat)
  next : Nat
deriving DecidableEq, Repr

/-- Dictionary lookup in the cache (`cls._all_expressions.get`). -/
def lookupId : List (TreeExpr × Nat) → TreeExpr → Option Nat
  | [], _ => none
  | (k, i) :: rest, key => if k = key then some i else lookupId rest key

/-- `Expr.__new__(cls, tree_expr)`: return the cached object for the key
if present, otherwise create a fresh object (a fresh identity) and insert
it.  Returns the identity of the resulting facade object and the new
cache state. -/
def exprNew (s : InternState) (key : TreeExpr) : Nat × InternState :=
  match lookupId s.table key with
  | some i => (i, s)
  | none => (s.next, ⟨(key, s.next) :: s.table, s.next + 1⟩)

/-- Well-formedness of the cache: identities are below `next`, and keys
and identities determine entries uniquely (one object per structural
key, one key per object). -/
def InternWF (s : InternState) : Prop :=
  (∀ p ∈ s.table, p.2 < s.next) ∧
  (∀ p ∈ s.table, ∀ q ∈ s.table, p.1 = q.1 → p = q) ∧
  (∀ p ∈ s.table, ∀ q ∈ s.table, p.2 = q.2 → p = q)

instance (s : InternState) : Decidable (InternWF s) := by
  unfold InternWF
  infer_instance

theorem lookupId_mem {t : List (TreeExpr × Nat)} {key : TreeExpr} {i : Nat}
    (h : lookupId t key = some i) : (key, i) ∈ t := by
  induction t with
  | nil => simp [lookupId] at h
  | cons p rest ih =>
    obtain ⟨k, j⟩ := p
    by_cases hk : k = key
    · subst hk
      simp [lookupId] at h
      simp [h]
    · simp [lookupId, hk] at h
      exact List.mem_cons_of_mem _ (ih h)

theorem lookupId_none {t : List (TreeExpr × Nat)} {key : TreeExpr}
    (h : lookupId t key = none) : ∀ i, (key, i) ∉ t := by
  induction t with
  | nil => simp
  | cons p rest ih =>
    obtain ⟨k, j⟩ := p
    by_cases hk : k = key
    · subst hk; simp [lookupId] at h
    · simp [lookupId, hk] at h
      intro i
      simp only [List.mem_cons]
      rintro (heq | hmem)
      · exact hk (congrArg Prod.fst heq).symm
      · exact ih h i hmem

/-- `exprNew` preserves well-formedness of the cache. -/
theorem exprNew_wf {s : InternState} (hwf : InternWF s) (key : TreeExpr) :
    InternWF (exprNew s key).2 := by
  obtain ⟨hlt, hkey, hid⟩ := hwf
  unfold exprNew
  cases h : lookupId s.table key with
  | some i => exact ⟨hlt, hkey, hid⟩
  | none =>
    show InternWF ⟨(key, s.next) :: s.table, s.next + 1⟩
    refine ⟨?_, ?_, ?_⟩
    · intro p hp
      rcases List.mem_cons.mp hp with rfl | hp'
      · exact Nat.lt_succ_self _
      · exact Nat.lt_succ_of_lt (hlt p hp')
    · intro p hp q hq
      rcases List.mem_cons.mp hp with rfl | hp' <;>
        rcases List.mem_cons.mp hq with rfl | hq'
      · intro _; rfl
      · intro hpq
        obtain ⟨q1, q2⟩ := q
        have hk : key = q1 := hpq
        subst hk
        exact absurd hq' (lookupId_none h q2)
      · intro hpq
        obtain ⟨p1, p2⟩ := p
        have hk : p1 = key := hpq
        subst hk
        exact absurd hp' (lookupId_none h p2)
      · exact hkey p hp' q hq'
    · intro p hp q hq
      rcases List.mem_cons.mp hp with rfl | hp' <;>
        rcases List.mem_cons.mp hq with rfl | hq'
      · intro _; rfl
      · intro hpq
        exact absurd (hpq ▸ hlt q hq') (Nat.lt_irrefl _)
      · intro hpq
        exact absurd (hpq ▸ hlt p hp') (Nat.lt_irrefl _)
      · exact hid p hp' q hq'

/-! ## Operation counting

`Expr.count_ops_tree` and `Expr.count_ops_graph` are exercised by
`tests/test_simplecas.py::test_simplecas_count_ops` but their code is
not under `src/`; both are modelled from the specification (§4.5).
Per the test's expected values (`x` counts 1, `sin(x)` counts 2), the
head of a call node is not itself counted and a call node's children are
its arguments. -/

/-- Modelled from the spec: `count_ops_tree`, the number of nodes in the
fully unshared expansion, by plain unmemoized recursion:
`total = 1 + sum of child totals`. -/
def count_ops_tree : TreeExpr → Nat
  | .atom _ => 1
  | .call _ args => 1 + sumTree args
where
  /-- Sum of the tree counts of a list of children. -/
  sumTree : List TreeExpr → Nat
    | [] => 0
    | a :: rest => count_ops_tree a + sumTree rest

mutual

/-- Modelled from the spec: the set of distinct canonical nodes
reachable from a root by following argument edges (the nodes a traversal
memoized by node identity visits). -/
def reach : TreeExpr → Finset TreeExpr
  | .atom a => {.atom a}
  | .call h args => insert (.call h args) (reachList args)

/-- Union of the reachable sets of a list of argument nodes. -/
def reachList : List TreeExpr → Finset TreeExpr
  | [] => ∅
  | a :: rest => reach a ∪ reachList rest

end

/-- Modelled from the spec: `count_ops_graph`, the number of distinct
canonical nodes reachable from the root. -/
def count_ops_graph (e : TreeExpr) : Nat := (reach e).card

theorem self_mem_reach (e : TreeExpr) : e ∈ reach e := by
  cases e with
  | atom a => simp [reach]
  | call h args => simp [reach]

/-- A member of a child list contributes its tree count to the sum. -/
theorem sumTree_le_of_mem :
    ∀ es : List TreeExpr, ∀ c ∈ es, count_ops_tree c ≤ count_ops_tree.sumTree es
  | [], c => by simp
  | e :: rest, c => by
    intro hc
    rcases List.mem_cons.mp hc with rfl | hc
    · simp [count_ops_tree.sumTree]
    · have := sumTree_le_of_mem rest c hc
      simp only [count_ops_tree.sumTree]
      omega

mutual

/-- Every node reachable from `e` has a tree count at most that of `e`
(it is a subterm along argument edges). -/
theorem count_le_of_mem_reach :
    ∀ e : TreeExpr, ∀ a ∈ reach e, count_ops_tree a ≤ count_ops_tree e
  | .atom b => by
    intro a ha
    simp [reach] at ha
    subst ha
    exact le_refl _
  | .call h args => by
    intro a ha
    simp only [reach, Finset.mem_insert] at ha
    rcases ha with rfl | ha
    · exact le_refl _
    · obtain ⟨c, hc, hle⟩ := count_le_of_mem_reachList args a ha
      calc count_ops_tree a ≤ count_ops_tree c := hle
        _ ≤ count_ops_tree (.call h args) := by
            simp only [count_ops_tree]
            have := sumTree_le_of_mem args c hc
            omega

theorem count_le_of_mem_reachList :
    ∀ es : List TreeExpr, ∀ a ∈ reachList es,
      ∃ c ∈ es, count_ops_tree a ≤ count_ops_tree c
  | [] => by
    intro a ha
    simp [reachList] at ha
  | e :: rest => by
    intro a ha
    simp only [reachList, Finset.mem_union] at ha
    rcases ha with ha | ha
    · exact ⟨e, List.mem_cons_self e rest, count_le_of_mem_reach e a ha⟩
    · obtain ⟨c, hc, hle⟩ := count_le_of_mem_reachList rest a ha
      exact ⟨c, List.mem_cons_of_mem _ hc, hle⟩

end

/-! ## The iterated expression of `test_simplecas_count_ops`

`e = x**2 + x` followed by `n` repetitions of `e = e**2 + e`.  The test
builds `x**2` with a native `int` exponent, which `expressify` coerces
to `Integer(2)`. -/

/-- `x**2 + x`. -/
def countOpsBase : TreeExpr := exprAdd (exprPow x (Integer 2)) x

/-- One repetition `e = e**2 + e`. -/
def countOpsStep (e : TreeExpr) : TreeExpr := exprAdd (exprPow e (Integer 2)) e

/-- `make_expression(n)` from the test: `x**2 + x` followed by `n`
repetitions of `e = e**2 + e`. -/
def makeExpression : Nat → TreeExpr
  | 0 => countOpsBase
  | n + 1 => countOpsStep (makeExpression n)

theorem count_ops_tree_step (e : TreeExpr) :
    count_ops_tree (countOpsStep e) = 2 * count_ops_tree e + 3 := by
  simp only [countOpsStep, exprAdd, exprPow, applyE, Integer, count_ops_tree,
    count_ops_tree.sumTree]
  ring

theorem count_ops_tree_makeExpression (n : Nat) :
    count_ops_tree (makeExpression n) = 8 * 2 ^ n - 3 := by
  induction n with
  | zero => rfl
  | succ n ih =>
    have h2 : 1 ≤ 2 ^ n := Nat.one_le_two_pow
    simp only [makeExpression, count_ops_tree_step, ih, pow_succ]
    omega

theorem reach_step (e : TreeExpr) (h2 : Integer 2 ∈ reach e) :
    reach (countOpsStep e) =
      insert (countOpsStep e) (insert (exprPow e (Integer 2)) (reach e)) := by
  ext a
  simp only [countOpsStep, exprAdd, exprPow, applyE, Integer, reach, reachList,
    Finset.mem_insert, Finset.mem_union, Finset.union_empty,
    Finset.union_assoc, Finset.mem_singleton]
  constructor
  · rintro (rfl | (rfl | ha | rfl) | ha)
    · exact Or.inl rfl
    · exact Or.inr (Or.inl rfl)
    · exact Or.inr (Or.inr ha)
    · exact Or.inr (Or.inr (by simpa [Integer] using h2))
    · exact Or.inr (Or.inr ha)
  · rintro (rfl | rfl | ha)
    · exact Or.inl rfl
    · exact Or.inr (Or.inl (Or.inl rfl))
    · exact Or.inr (Or.inr ha)

theorem integer_two_mem_reach_makeExpression (n : Nat) :
    Integer 2 ∈ reach (makeExpression n) := by
  induction n with
  | zero => decide
  | succ n ih =>
    rw [makeExpression, reach_step _ ih]
    exact Finset.mem_insert_of_mem (Finset.mem_insert_of_mem ih)

theorem count_ops_tree_pos (e : TreeExpr) : 1 ≤ count_ops_tree e := by
  cases e <;> simp [count_ops_tree]

theorem count_ops_graph_step (e : TreeExpr) (h2 : Integer 2 ∈ reach e) :
    count_ops_graph (countOpsStep e) = count_ops_graph e + 2 := by
  have hpow_not : exprPow e (Integer 2) ∉ reach e := by
    intro hmem
    have := count_le_of_mem_reach e _ hmem
    simp only [exprPow, applyE, Integer, count_ops_tree,
      count_ops_tree.sumTree] at this
    omega
  have hstep_not : countOpsStep e ∉ insert (exprPow e (Integer 2)) (reach e) := by
    intro hmem
    rcases Finset.mem_insert.mp hmem with heq | hmem
    · have : count_ops_tree (countOpsStep e) = 2 * count_ops_tree e + 3 :=
        count_ops_tree_step e
      rw [heq] at this
      simp only [exprPow, applyE, Integer, count_ops_tree,
        count_ops_tree.sumTree] at this
      have := count_ops_tree_pos e
      omega
    · have := count_le_of_mem_reach e _ hmem
      rw [count_ops_tree_step e] at this
      have := count_ops_tree_pos e
      omega
  rw [count_ops_graph, reach_step e h2, Finset.card_insert_of_not_mem hstep_not,
    Finset.card_insert_of_not_mem hpow_not]
  rfl

theorem count_ops_graph_makeExpression (n : Nat) :
    count_ops_graph (makeExpression n) = 4 + 2 * n := by
  induction n with
  | zero => rfl
  | succ n ih =>
    rw [makeExpression, count_ops_graph_step _ (integer_two_mem_reach_makeExpression n), ih]
    ring

/-! ## The generic evaluator

Modelled from the spec (§4.2): `protosym.core.evaluate.Evaluator`, whose
code is not under `src/`.  An evaluator over a result type `R` is a
dispatch table assembled by registration calls: per-atom-type handlers
(the program declares exactly the atom types `Integer`, `Symbol` and
`Function`), fixed-arity handlers for 1 or 2 arguments keyed by a head
node, and variadic handlers keyed by a head node.  Evaluation is
post-order: a leaf bound in the substitution returns its value directly,
other leaves use the atom handler of their atom type, and a call node
evaluates its arguments and then dispatches by exact head identity — a
matching fixed-arity handler first, else a variadic handler, else
failure.  There is no default or fallback. -/

/-- An evaluator dispatch table over result type `R`. -/
structure Evaluator (R : Type) : Type where
  intHandler : Option (Int → R) := none
  symHandler : Option (String → R) := none
  fnHandler : Option (String → R) := none
  op1 : List (TreeExpr × (R → R)) := []
  op2 : List (TreeExpr × (R → R → R)) := []
  opn : List (TreeExpr × (List R → R)) := []

/-- `Evaluator.add_atom(Integer.atom_type, f)`. -/
def Evaluator.add_atom_int (ev : Evaluator R) (f : Int → R) : Evaluator R :=
  { ev with intHandler := some f }

/-- `Evaluator.add_atom(Symbol.atom_type, f)`. -/
def Evaluator.add_atom_sym (ev : Evaluator R) (f : String → R) : Evaluator R :=
  { ev with symHandler := some f }

/-- `Evaluator.add_atom(Function.atom_type, f)`. -/
def Evaluator.add_atom_fn (ev : Evaluator R) (f : String → R) : Evaluator R :=
  { ev with fnHandler := some f }

/-- `Evaluator.add_op1(head, f)`. -/
def Evaluator.add_op1 (ev : Evaluator R) (head : TreeExpr) (f : R → R) :
    Evaluator R :=
  { ev with op1 := ev.op1 ++ [(head, f)] }

/-- `Evaluator.add_op2(head, f)`. -/
def Evaluator.add_op2 (ev : Evaluator R) (head : TreeExpr) (f : R → R → R) :
    Evaluator R :=
  { ev with op2 := ev.op2 ++ [(head, f)] }

/-- `Evaluator.add_opn(head, f)`. -/
def Evaluator.add_opn (ev : Evaluator R) (head : TreeExpr) (f : List R → R) :
    Evaluator R :=
  { ev with opn := ev.opn ++ [(head, f)] }

/-- Lookup of the handler registered for a head in one dispatch table. -/
def lookupOp {A : Type} : List (TreeExpr × A) → TreeExpr → Option A
  | [], _ => none
  | (k, f) :: rest, head => if k = head then some f else lookupOp rest head

/-- Failure of an evaluation: a call head with no matching handler
(`UnhandledHeadError`), or a leaf with neither a substitution binding
nor an atom handler. -/
inductive EvalError : Type
  | unhandledHead (head : TreeExpr)
  | unhandledAtom (a : Atom)

/-- Atom evaluation: use the atom handler of the leaf's atom type, or
fail if none is registered. -/
def evalAtom (ev : Evaluator R) : Atom → Except EvalError R
  | .int n =>
    match ev.intHandler with
    | some f => .ok (f n)
    | none => .error (.unhandledAtom (.int n))
  | .sym s =>
    match ev.symHandler with
    | some f => .ok (f s)
    | none => .error (.unhandledAtom (.sym s))
  | .fn s =>
    match ev.fnHandler with
    | some f => .ok (f s)
    | none => .error (.unhandledAtom (.fn s))

/-- Call dispatch by exact head identity on the evaluated argument
results: a fixed-arity handler whose arity matches, else a variadic
handler, else `UnhandledHeadError`. -/
def dispatch (ev : Evaluator R) (head : TreeExpr) (rs : List R) :
    Except EvalError R :=
  match rs, lookupOp ev.op1 head, lookupOp ev.op2 head with
  | [r], some f, _ => .ok (f r)
  | [r1, r2], _, some f => .ok (f r1 r2)
  | rs, _, _ =>
    match lookupOp ev.opn head with
    | some f => .ok (f rs)
    | none => .error (.unhandledHead head)

mutual

/-- Post-order evaluation of a canonical node under an optional
substitution from leaf nodes to results. -/
def evalTree (ev : Evaluator R) (vals : List (TreeExpr × R)) :
    TreeExpr → Except EvalError R
  | .atom a =>
    match lookupOp vals (.atom a) with
    | some r => .ok r
    | none => evalAtom ev a
  | .call head args =>
    match evalTreeList ev vals args with
    | .ok rs => dispatch ev head rs
    | .error e => .error e

/-- Left-to-right evaluation of the arguments of a call node. -/
def evalTreeList (ev : Evaluator R) (vals : List (TreeExpr × R)) :
    List TreeExpr → Except EvalError (List R)
  | [] => .ok []
  | e :: rest =>
    match evalTree ev vals e with
    | .ok r =>
      match evalTreeList ev vals rest with
      | .ok rs => .ok (r :: rs)
      | .error err => .error err
    | .error err => .error err

end

/-! ## The concrete rendering evaluators (simplecas.py lines 277-295) -/

/-- `eval_repr`: the plain-text printing evaluator. -/
def eval_repr : Evaluator String :=
  (({} : Evaluator String).add_atom_int (fun n => toString n)
    |>.add_atom_sym (fun s => s)
    |>.add_atom_fn (fun s => s)
    |>.add_op1 sin (fun a => "sin(" ++ a ++ ")")
    |>.add_op1 cos (fun a => "cos(" ++ a ++ ")")
    |>.add_op2 Pow (fun b e => b ++ "**" ++ e)
    |>.add_opn Add (fun args => "(" ++ String.intercalate " + " args ++ ")")
    |>.add_opn Mul (fun args => "(" ++ String.intercalate "*" args ++ ")"))

/-- `eval_latex`: the typeset (LaTeX) printing evaluator. -/
def eval_latex : Evaluator String :=
  (({} : Evaluator String).add_atom_int (fun n => toString n)
    |>.add_atom_sym (fun s => s)
    |>.add_atom_fn (fun s => s)
    |>.add_op1 sin (fun a => "\\sin(" ++ a ++ ")")
    |>.add_op1 cos (fun a => "\\cos(" ++ a ++ ")")
    |>.add_op2 Pow (fun b e => b ++ "^\x7b" ++ e ++ "\x7d")
    |>.add_opn Add (fun args => "(" ++ String.intercalate " + " args ++ ")")
    |>.add_opn Mul (fun args => "(" ++ String.intercalate " \\times " args ++ ")"))

/-! ## Dispatch completeness -/

/-- A call of `head` on `n` arguments has a handler in `ev`: a matching
fixed-arity handler, or a variadic handler. -/
def handledHead (ev : Evaluator R) (head : TreeExpr) (n : Nat) : Bool :=
  (n == 1 && (lookupOp ev.op1 head).isSome) ||
    (n == 2 && (lookupOp ev.op2 head).isSome) ||
    (lookupOp ev.opn head).isSome

/-- A node is an unhandled call for `ev`: a call node whose head and
arity match no registered handler. -/
def isUnhandledCall (ev : Evaluator R) : TreeExpr → Bool
  | .atom _ => false
  | .call head args => !handledHead ev head args.length

/-- A leaf cannot fail: it is bound by the substitution or its atom type
has a registered handler. -/
def atomCovered (ev : Evaluator R) (vals : List (TreeExpr × R)) (a : Atom) :
    Bool :=
  (lookupOp vals (.atom a)).isSome ||
    (match a with
     | .int _ => ev.intHandler.isSome
     | .sym _ => ev.symHandler.isSome
     | .fn _ => ev.fnHandler.isSome)

theorem dispatch_unhandled (ev : Evaluator R) (head : TreeExpr) (rs : List R)
    (h : handledHead ev head rs.length = false) :
    dispatch ev head rs = .error (.unhandledHead head) := by
  simp only [handledHead, Bool.or_eq_false_iff, Bool.and_eq_false_iff] at h
  obtain ⟨⟨h1, h2⟩, hn⟩ := h
  have hn' : lookupOp ev.opn head = none := by
    cases hopn : lookupOp ev.opn head with
    | none => rfl
    | some f => rw [hopn] at hn; simp at hn
  match rs with
  | [] => simp [dispatch, hn']
  | [r] =>
    have : lookupOp ev.op1 head = none := by
      rcases h1 with h1 | h1
      · simp at h1
      · cases hop : lookupOp ev.op1 head with
        | none => rfl
        | some f => rw [hop] at h1; simp at h1
    simp [dispatch, this, hn']
  | [r1, r2] =>
    have : lookupOp ev.op2 head = none := by
      rcases h2 with h2 | h2
      · simp at h2
      · cases hop : lookupOp ev.op2 head with
        | none => rfl
        | some f => rw [hop] at h2; simp at h2
    simp [dispatch, this, hn']
  | r1 :: r2 :: r3 :: rest => simp [dispatch, hn']

theorem dispatch_handled (ev : Evaluator R) (head : TreeExpr) (rs : List R)
    (h : handledHead ev head rs.length = true) :
    ∃ r, dispatch ev head rs = .ok r := by
  match rs with
  | [] =>
    simp only [handledHead, List.length_nil] at h
    simp only [Bool.or_eq_true, Bool.and_eq_true] at h
    rcases h with (⟨h', _⟩ | ⟨h', _⟩) | h'
    · simp at h'
    · simp at h'
    · obtain ⟨f, hf⟩ := Option.isSome_iff_exists.mp h'
      exact ⟨f [], by simp [dispatch, hf]⟩
  | [r] =>
    cases hop : lookupOp ev.op1 head with
    | some f => exact ⟨f r, by simp [dispatch, hop]⟩
    | none =>
      simp only [handledHead, List.length_cons, List.length_nil, hop] at h
      simp only [Bool.or_eq_true, Bool.and_eq_true] at h
      rcases h with (⟨_, h'⟩ | ⟨h', _⟩) | h'
      · simp at h'
      · simp at h'
      · obtain ⟨f, hf⟩ := Option.isSome_iff_exists.mp h'
        exact ⟨f [r], by simp [dispatch, hop, hf]⟩
  | [r1, r2] =>
    cases hop : lookupOp ev.op2 head with
    | some f => exact ⟨f r1 r2, by simp [dispatch, hop]⟩
    | none =>
      simp only [handledHead, List.length_cons, List.length_nil, hop] at h
      simp only [Bool.or_eq_true, Bool.and_eq_true] at h
      rcases h with (⟨h', _⟩ | ⟨_, h'⟩) | h'
      · simp at h'
      · simp at h'
      · obtain ⟨f, hf⟩ := Option.isSome_iff_exists.mp h'
        exact ⟨f [r1, r2], by simp [dispatch, hop, hf]⟩
  | r1 :: r2 :: r3 :: rest =>
    simp only [handledHead, List.length_cons] at h
    simp only [Bool.or_eq_true, Bool.and_eq_true] at h
    rcases h with (⟨h', _⟩ | ⟨h', _⟩) | h'
    · simp at h'
    · simp at h'
    · obtain ⟨f, hf⟩ := Option.isSome_iff_exists.mp h'
      exact ⟨f (r1 :: r2 :: r3 :: rest), by simp [dispatch, hf]⟩

theorem dispatch_error (ev : Evaluator R) (head : TreeExpr) (rs : List R)
    (err : EvalError) (h : dispatch ev head rs = .error err) :
    err = .unhandledHead head := by
  unfold dispatch at h
  split at h
  · exact absurd h (by simp)
  · exact absurd h (by simp)
  · split at h
    · exact absurd h (by simp)
    · cases h; rfl

theorem evalAtom_covered_ok (ev : Evaluator R) (vals : List (TreeExpr × R))
    (a : Atom) (h : atomCovered ev vals a = true) :
    ∃ r, evalTree ev vals (.atom a) = .ok r := by
  simp only [atomCovered, Bool.or_eq_true] at h
  rcases h with h | h
  · obtain ⟨r, hr⟩ := Option.isSome_iff_exists.mp h
    exact ⟨r, by simp [evalTree, hr]⟩
  · cases hl : lookupOp vals (.atom a) with
    | some r => exact ⟨r, by simp [evalTree, hl]⟩
    | none =>
      cases a with
      | int n =>
        obtain ⟨f, hf⟩ := Option.isSome_iff_exists.mp h
        exact ⟨f n, by simp [evalTree, hl, evalAtom, hf]⟩
      | sym s =>
        obtain ⟨f, hf⟩ := Option.isSome_iff_exists.mp h
        exact ⟨f s, by simp [evalTree, hl, evalAtom, hf]⟩
      | fn s =>
        obtain ⟨f, hf⟩ := Option.isSome_iff_exists.mp h
        exact ⟨f s, by simp [evalTree, hl, evalAtom, hf]⟩

theorem evalTreeList_ok_length (ev : Evaluator R) (vals : List (TreeExpr × R)) :
    ∀ es : List TreeExpr, ∀ rs : List R,
      evalTreeList ev vals es = .ok rs → rs.length = es.length := by
  intro es
  induction es with
  | nil => intro rs h; simp only [evalTreeList] at h; cases h; rfl
  | cons e rest ih =>
    intro rs h
    simp only [evalTreeList] at h
    cases he : evalTree ev vals e with
    | error err => rw [he] at h; exact absurd h (by simp)
    | ok r =>
      rw [he] at h
      cases hrest : evalTreeList ev vals rest with
      | error err => rw [hrest] at h; exact absurd h (by simp)
      | ok rs0 =>
        rw [hrest] at h
        cases h
        simp [ih rs0 hrest]

mutual

/-- When every leaf of the tree is covered (bound or handled), any
evaluation failure is an `UnhandledHeadError`. -/
theorem evalTree_error_unhandledHead (ev : Evaluator R)
    (vals : List (TreeExpr × R)) :
    ∀ e : TreeExpr,
      (∀ a : Atom, TreeExpr.atom a ∈ reach e → atomCovered ev vals a = true) →
      ∀ err, evalTree ev vals e = .error err →
        ∃ head, err = .unhandledHead head
  | .atom a => by
    intro hcov err herr
    obtain ⟨r, hr⟩ := evalAtom_covered_ok ev vals a (hcov a (self_mem_reach _))
    rw [hr] at herr
    exact absurd herr (by simp)
  | .call head args => by
    intro hcov err herr
    rw [evalTree] at herr
    cases hargs : evalTreeList ev vals args with
    | error err0 =>
      rw [hargs] at herr
      cases herr
      exact evalTreeList_error_unhandledHead ev vals args
        (fun a ha => hcov a (by
          simp only [reach]
          exact Finset.mem_insert_of_mem ha)) _ hargs
    | ok rs =>
      rw [hargs] at herr
      exact ⟨head, dispatch_error ev head rs err herr⟩

/-- List version of `evalTree_error_unhandledHead`. -/
theorem evalTreeList_error_unhandledHead (ev : Evaluator R)
    (vals : List (TreeExpr × R)) :
    ∀ es : List TreeExpr,
      (∀ a : Atom, TreeExpr.atom a ∈ reachList es → atomCovered ev vals a = true) →
      ∀ err, evalTreeList ev vals es = .error err →
        ∃ head, err = .unhandledHead head
  | [] => by
    intro _ err herr
    simp only [evalTreeList] at herr
    exact absurd herr (by simp)
  | e :: rest => by
    intro hcov err herr
    simp only [evalTreeList] at herr
    cases he : evalTree ev vals e with
    | error err0 =>
      rw [he] at herr
      cases herr
      exact evalTree_error_unhandledHead ev vals e
        (fun a ha => hcov a (by
          simp only [reachList, Finset.mem_union]
          exact Or.inl ha)) _ he
    | ok r =>
      rw [he] at herr
      cases hrest : evalTreeList ev vals rest with
      | error err0 =>
        rw [hrest] at herr
        cases herr
        exact evalTreeList_error_unhandledHead ev vals rest
          (fun a ha => hcov a (by
            simp only [reachList, Finset.mem_union]
            exact Or.inr ha)) _ hrest
      | ok rs =>
        rw [hrest] at herr
        exact absurd herr (by simp)

end

mutual

/-- When the tree contains (in evaluated position) a call node with no
registered handler, evaluation never returns a result. -/
theorem evalTree_unhandled_not_ok (ev : Evaluator R)
    (vals : List (TreeExpr × R)) :
    ∀ e : TreeExpr, ∀ c ∈ reach e, isUnhandledCall ev c = true →
      ∀ r, evalTree ev vals e ≠ .ok r
  | .atom a => by
    intro c hc hbad r
    simp only [reach, Finset.mem_singleton] at hc
    subst hc
    simp [isUnhandledCall] at hbad
  | .call head args => by
    intro c hc hbad r hok
    rw [evalTree] at hok
    cases hargs : evalTreeList ev vals args with
    | error err0 => rw [hargs] at hok; exact absurd hok (by simp)
    | ok rs =>
      rw [hargs] at hok
      simp only [reach, Finset.mem_insert] at hc
      rcases hc with rfl | hc
      · simp only [isUnhandledCall, Bool.not_eq_true'] at hbad
        have hok' : dispatch ev head rs = Except.ok r := hok
        rw [dispatch_unhandled ev head rs
            (by rw [evalTreeList_ok_length ev vals args rs hargs]; exact hbad)]
          at hok'
        exact absurd hok' (by simp)
      · exact evalTreeList_unhandled_not_ok ev vals args c hc hbad rs hargs

/-- List version of `evalTree_unhandled_not_ok`. -/
theorem evalTreeList_unhandled_not_ok (ev : Evaluator R)
    (vals : List (TreeExpr × R)) :
    ∀ es : List TreeExpr, ∀ c ∈ reachList es, isUnhandledCall ev c = true →
      ∀ rs, evalTreeList ev vals es ≠ .ok rs
  | [] => by
    intro c hc
    simp [reachList] at hc
  | e :: rest => by
    intro c hc hbad rs hok
    simp only [evalTreeList] at hok
    simp only [reachList, Finset.mem_union] at hc
    cases he : evalTree ev vals e with
    | error err0 => rw [he] at hok; exact absurd hok (by simp)
    | ok r =>
      rw [he] at hok
      cases hrest : evalTreeList ev vals rest with
      | error err0 => rw [hrest] at hok; exact absurd hok (by simp)
      | ok rs0 =>
        rcases hc with hc | hc
        · exact evalTree_unhandled_not_ok ev vals e c hc hbad r he
        · exact evalTreeList_unhandled_not_ok ev vals rest c hc hbad rs0 hrest

end

/-! ## Conversion to and from the one foreign algebra system (SymPy)

`simplecas.py` lines 217-249 build an `Evaluator` mapping this system's
atoms and heads to the foreign system's constructors.  The spec treats
the foreign system as an external collaborator exposing only a
conversion contract, so its expressions are modelled as an inert term
taxonomy: the constructs the outbound evaluator targets, plus a case
for every foreign construct with no mapping (the documented examples are
special functions such as `li` and unevaluated symbolic infinities such
as `ord0`). -/

/-- The foreign system's expression taxonomy, as seen by the conversion
contract. -/
inductive SymExpr : Type
  | sInteger (n : Int)
  | sSymbol (s : String)
  | sFunction (s : String)
  | sSin (a : SymExpr)
  | sCos (a : SymExpr)
  | sPow (b e : SymExpr)
  | sAdd (args : List SymExpr)
  | sMul (args : List SymExpr)
  | sUnsupported (name : String)
deriving Repr

/-- `_get_eval_to_sympy()`: the outbound evaluator of simplecas.py lines
230-238, with the foreign constructors as handler targets. -/
def eval_to_sympy : Evaluator SymExpr :=
  (({} : Evaluator SymExpr).add_atom_int (fun n => .sInteger n)
    |>.add_atom_sym (fun s => .sSymbol s)
    |>.add_atom_fn (fun s => .sFunction s)
    |>.add_op1 sin (fun a => .sSin a)
    |>.add_op1 cos (fun a => .sCos a)
    |>.add_op2 Pow (fun b e => .sPow b e)
    |>.add_opn Add (fun args => .sAdd args)
    |>.add_opn Mul (fun args => .sMul args))

/-- `to_sympy(expr)`: run the outbound evaluator on the wrapped node. -/
def to_sympy (e : TreeExpr) : Except EvalError SymExpr :=
  evalTree eval_to_sympy [] e

/-- `UnsupportedConversionError` (`NotImplementedError` in the tests):
raised by the inbound conversion on a construct with no mapping,
carrying the offending value. -/
inductive ConversionError : Type
  | unsupported (offending : String)
deriving DecidableEq, Repr

mutual

/-- Modelled from the spec: `Expr.from_sympy`, whose code is not under
`src/` (only `tests/test_simplecas.py` calls it).  Inbound conversion is
a structural case analysis over the foreign taxonomy into canonical
nodes; a construct with no mapping fails explicitly, naming the
offending value. -/
def from_sympy : SymExpr → Except ConversionError TreeExpr
  | .sInteger n => .ok (Integer n)
  | .sSymbol s => .ok (Symbol s)
  | .sFunction s => .ok (Function s)
  | .sSin a =>
    match from_sympy a with
    | .ok t => .ok (applyE sin [t])
    | .error err => .error err
  | .sCos a =>
    match from_sympy a with
    | .ok t => .ok (applyE cos [t])
    | .error err => .error err
  | .sPow b e =>
    match from_sympy b with
    | .ok tb =>
      match from_sympy e with
      | .ok te => .ok (applyE Pow [tb, te])
      | .error err => .error err
    | .error err => .error err
  | .sAdd args =>
    match from_sympyList args with
    | .ok ts => .ok (applyE Add ts)
    | .error err => .error err
  | .sMul args =>
    match from_sympyList args with
    | .ok ts => .ok (applyE Mul ts)
    | .error err => .error err
  | .sUnsupported name => .error (.unsupported name)

/-- Inbound conversion of an argument list, left to right. -/
def from_sympyList : List SymExpr → Except ConversionError (List TreeExpr)
  | [] => .ok []
  | a :: rest =>
    match from_sympy a with
    | .ok t =>
      match from_sympyList rest with
      | .ok ts => .ok (t :: ts)
      | .error err => .error err
    | .error err => .error err

end

/-- An expression built only from the constructs supported by the
foreign conversion: `Integer`, `Symbol` and `Function` atoms, and
`sin`, `cos`, `Pow`, `Add`, `Mul` call heads (with the arities the
outbound evaluator registers). -/
inductive Supported : TreeExpr → Prop
  | int (n : Int) : Supported (Integer n)
  | sym (s : String) : Supported (Symbol s)
  | fn (s : String) : Supported (Function s)
  | sinA (a : TreeExpr) : Supported a → Supported (applyE sin [a])
  | cosA (a : TreeExpr) : Supported a → Supported (applyE cos [a])
  | powA (b e : TreeExpr) : Supported b → Supported e →
      Supported (applyE Pow [b, e])
  | addA (args : List TreeExpr) : (∀ a ∈ args, Supported a) →
      Supported (applyE Add args)
  | mulA (args : List TreeExpr) : (∀ a ∈ args, Supported a) →
      Supported (applyE Mul args)

theorem dispatch_op1 (ev : Evaluator R) (head : TreeExpr) (r : R)
    (f : R → R) (h : lookupOp ev.op1 head = some f) :
    dispatch ev head [r] = .ok (f r) := by
  simp [dispatch, h]

theorem dispatch_op2 (ev : Evaluator R) (head : TreeExpr) (r1 r2 : R)
    (f : R → R → R) (h : lookupOp ev.op2 head = some f) :
    dispatch ev head [r1, r2] = .ok (f r1 r2) := by
  simp [dispatch, h]

theorem dispatch_opn (ev : Evaluator R) (head : TreeExpr) (rs : List R)
    (f : List R → R) (h1 : lookupOp ev.op1 head = none)
    (h2 : lookupOp ev.op2 head = none) (hn : lookupOp ev.opn head = some f) :
    dispatch ev head rs = .ok (f rs) := by
  match rs with
  | [] => simp [dispatch, hn]
  | [r] => simp [dispatch, h1, hn]
  | [r1, r2] => simp [dispatch, h2, hn]
  | r1 :: r2 :: r3 :: rest => simp [dispatch, hn]

/-- Round-trip of an argument list, given the round trip of each
element. -/
theorem roundtripList (args : List TreeExpr)
    (ih : ∀ a ∈ args, ∃ s, to_sympy a = .ok s ∧ from_sympy s = .ok a) :
    ∃ ss, evalTreeList eval_to_sympy [] args = .ok ss ∧
      from_sympyList ss = .ok args := by
  induction args with
  | nil => exact ⟨[], rfl, rfl⟩
  | cons a rest ihrest =>
    obtain ⟨s, hs, hback⟩ := ih a (List.mem_cons_self a rest)
    obtain ⟨ss, hss, hbacks⟩ :=
      ihrest (fun b hb => ih b (List.mem_cons_of_mem _ hb))
    refine ⟨s :: ss, ?_, ?_⟩
    · rw [evalTreeList, show evalTree eval_to_sympy [] a = .ok s from hs, hss]
    · rw [from_sympyList, hback, hbacks]

/-- Exporting a supported expression and re-importing it yields the
identical canonical node. -/
theorem roundtrip_supported (e : TreeExpr) (he : Supported e) :
    ∃ s, to_sympy e = .ok s ∧ from_sympy s = .ok e := by
  induction he with
  | int n => exact ⟨.sInteger n, rfl, rfl⟩
  | sym s => exact ⟨.sSymbol s, rfl, rfl⟩
  | fn s => exact ⟨.sFunction s, rfl, rfl⟩
  | sinA a _ iha =>
    obtain ⟨s, hs, hback⟩ := iha
    refine ⟨.sSin s, ?_, ?_⟩
    · show evalTree eval_to_sympy [] (.call sin [a]) = _
      rw [evalTree, evalTreeList, show evalTree eval_to_sympy [] a = .ok s from hs,
        evalTreeList]
      exact dispatch_op1 _ _ _ _ rfl
    · rw [from_sympy, hback]
  | cosA a _ iha =>
    obtain ⟨s, hs, hback⟩ := iha
    refine ⟨.sCos s, ?_, ?_⟩
    · show evalTree eval_to_sympy [] (.call cos [a]) = _
      rw [evalTree, evalTreeList, show evalTree eval_to_sympy [] a = .ok s from hs,
        evalTreeList]
      exact dispatch_op1 _ _ _ _ rfl
    · rw [from_sympy, hback]
  | powA b e _ _ ihb ihe =>
    obtain ⟨sb, hsb, hbackb⟩ := ihb
    obtain ⟨se, hse, hbacke⟩ := ihe
    refine ⟨.sPow sb se, ?_, ?_⟩
    · show evalTree eval_to_sympy [] (.call Pow [b, e]) = _
      rw [evalTree, evalTreeList, show evalTree eval_to_sympy [] b = .ok sb from hsb,
        evalTreeList, show evalTree eval_to_sympy [] e = .ok se from hse,
        evalTreeList]
      exact dispatch_op2 _ _ _ _ _ rfl
    · rw [from_sympy, hbackb, hbacke]
  | addA args _ ih =>
    obtain ⟨ss, hss, hbacks⟩ := roundtripList args ih
    refine ⟨.sAdd ss, ?_, ?_⟩
    · show evalTree eval_to_sympy [] (.call Add args) = _
      rw [evalTree, hss]
      exact dispatch_opn _ _ _ _ rfl rfl rfl
    · rw [from_sympy, hbacks]
  | mulA args _ ih =>
    obtain ⟨ss, hss, hbacks⟩ := roundtripList args ih
    refine ⟨.sMul ss, ?_, ?_⟩
    · show evalTree eval_to_sympy [] (.call Mul args) = _
      rw [evalTree, hss]
      exact dispatch_opn _ _ _ _ rfl rfl rfl
    · rw [from_sympy, hbacks]

/-! ## Differentiation

`Expr.diff` is exercised by
`tests/test_simplecas.py::test_simplecas_differentation` but its code is
not under `src/`; it is modelled from the specification (§4.4): pure
structural recursion with an explicit per-head rule table, returning
results in unreduced constructed form.  The handling of zero and one
derivative factors (a zero summand of a sum rule is dropped, a chain
rule factor of exactly `one` is omitted, a chain rule factor of exactly
`zero` collapses the term to `zero`) is pinned by the repository's own
test expectations (`sin(1).diff(x) == zero`,
`(2*sin(x)).diff(x) == 2*cos(x)`, `sin(x).diff(x) == cos(x)`,
`(x*sin(x)).diff(x) == 1*sin(x) + x*cos(x)`). -/

/-- `UnsupportedDifferentiationError`: a head with no registered rule,
or a `Pow` whose exponent is not a constant integer. -/
inductive DiffError : Type
  | unsupportedHead (head : TreeExpr)
  | nonConstantExponent (e : TreeExpr)
deriving DecidableEq, Repr

/-- Attach the chain-rule factor `du` to an already-built derivative
body `f`: a factor of `zero` collapses the result to `zero`, a factor of
exactly `one` is omitted, anything else multiplies. -/
def chainMul (f du : TreeExpr) : TreeExpr :=
  if du = zero then zero
  else if du = one then f
  else applyE Mul [f, du]

/-- Combine the two summands of the `Add`/`Mul` rules, dropping exact
`zero` summands. -/
def addTerms (t1 t2 : TreeExpr) : TreeExpr :=
  if t1 = zero then t2
  else if t2 = zero then t1
  else applyE Add [t1, t2]

/-- The first summand `d(a)·b` of the product rule: dropped entirely
when `d(a)` is exactly `zero`, otherwise built as a plain product. -/
def mulTerm (da b : TreeExpr) : TreeExpr :=
  if da = zero then zero else applyE Mul [da, b]

/-- The second summand `a·d(b)` of the product rule: dropped entirely
when `d(b)` is exactly `zero`, otherwise built as a plain product. -/
def mulTermR (a db : TreeExpr) : TreeExpr :=
  if db = zero then zero else applyE Mul [a, db]

/-- Modelled from the spec: structural differentiation of a canonical
node with respect to the variable `sym`.  Base cases: the exact
differentiation-variable atom gives `one`, any other atom gives `zero`.
Rules by head identity: `Add(a,b) ↦ d(a) + d(b)`,
`Mul(a,b) ↦ d(a)·b + a·d(b)`,
`Pow(base, exp) ↦ exp·base^(exp-1)·d(base)` for a constant integer
exponent (a non-constant exponent fails), `sin(u) ↦ cos(u)·d(u)`,
`cos(u) ↦ -sin(u)·d(u)`.  Any other head is a hard failure. -/
def diffTree (sym : TreeExpr) : TreeExpr → Except DiffError TreeExpr
  | .atom a => .ok (if TreeExpr.atom a = sym then one else zero)
  | .call head [u] =>
    if head = sin then
      match diffTree sym u with
      | .ok du => .ok (chainMul (applyE cos [u]) du)
      | .error err => .error err
    else if head = cos then
      match diffTree sym u with
      | .ok du => .ok (chainMul (applyE Mul [negone, applyE sin [u]]) du)
      | .error err => .error err
    else .error (.unsupportedHead head)
  | .call head [a, b] =>
    if head = Add then
      match diffTree sym a with
      | .ok da =>
        match diffTree sym b with
        | .ok db => .ok (addTerms da db)
        | .error err => .error err
      | .error err => .error err
    else if head = Mul then
      match diffTree sym a with
      | .ok da =>
        match diffTree sym b with
        | .ok db => .ok (addTerms (mulTerm da b) (mulTermR a db))
        | .error err => .error err
      | .error err => .error err
    else if head = Pow then
      match b with
      | .atom (.int n) =>
        match diffTree sym a with
        | .ok da =>
          .ok (chainMul
            (applyE Mul [Integer n, applyE Pow [a, applyE Add [Integer n, negone]]])
            da)
        | .error err => .error err
      | _ => .error (.nonConstantExponent b)
    else .error (.unsupportedHead head)
  | .call head _ => .error (.unsupportedHead head)

/-! ## Remaining helper definitions and lemmas for the claims -/

/-- Leaf coverage at one node: an atom node must be bound by the
substitution or have an atom handler; a call node imposes nothing. -/
def atomCoveredNode (ev : Evaluator R) (vals : List (TreeExpr × R)) :
    TreeExpr → Bool
  | .atom a => atomCovered ev vals a
  | .call _ _ => true

/-- After constructing `k`, the cache maps `k` to the returned object. -/
theorem exprNew_lookup_self (s : InternState) (k : TreeExpr) :
    lookupId (exprNew s k).2.table k = some (exprNew s k).1 := by
  unfold exprNew
  cases h : lookupId s.table k with
  | some i => exact h
  | none => simp [lookupId]

/-- `Expr.__new__` on a cache hit returns the cached object and leaves
the cache unchanged. -/
theorem exprNew_found {s : InternState} {k : TreeExpr} {i : Nat}
    (h : lookupId s.table k = some i) : exprNew s k = (i, s) := by
  unfold exprNew
  rw [h]

/-- `Expr.__new__` on a cache miss allocates a fresh object and
registers it. -/
theorem exprNew_miss {s : InternState} {k : TreeExpr}
    (h : lookupId s.table k = none) :
    exprNew s k = (s.next, ⟨(k, s.next) :: s.table, s.next + 1⟩) := by
  unfold exprNew
  rw [h]

theorem sumTree_eq_map_sum : ∀ es : List TreeExpr,
    count_ops_tree.sumTree es = (es.map count_ops_tree).sum
  | [] => rfl
  | e :: rest => by
    simp [count_ops_tree.sumTree, sumTree_eq_map_sum rest]

/-! ## The claims -/

/-- C1: Hash-consing/interning invariant: for every valid construction
key, constructing a facade value twice with equal keys returns the
identical object, and equality between two facade values (their object
identities) holds iff their wrapped canonical nodes are the same object
— equality reduces to identity, never deep comparison.  Stated over the
`Expr.__new__` cache: in any well-formed cache state, re-constructing
the key `k1` returns the object made by the first construction, and a
construction with key `k2` returns that same object exactly when
`k2 = k1`. -/
theorem claim_C1_interning (s : InternState) (k1 k2 : TreeExpr)
    (hwf : InternWF s) :
    (exprNew (exprNew s k1).2 k1).1 = (exprNew s k1).1 ∧
    ((exprNew (exprNew s k1).2 k2).1 = (exprNew s k1).1 ↔ k2 = k1) := by
  have hwf1 : InternWF (exprNew s k1).2 := exprNew_wf hwf k1
  have hself := exprNew_lookup_self s k1
  have hmem1 : (k1, (exprNew s k1).1) ∈ (exprNew s k1).2.table :=
    lookupId_mem hself
  constructor
  · rw [exprNew_found hself]
  · cases hl : lookupId (exprNew s k1).2.table k2 with
    | some i2 =>
      rw [exprNew_found hl]
      show i2 = (exprNew s k1).1 ↔ k2 = k1
      constructor
      · intro heq
        have hmem2 : (k2, i2) ∈ (exprNew s k1).2.table := lookupId_mem hl
        have hpq := hwf1.2.2 _ hmem2 _ hmem1 heq
        exact congrArg Prod.fst hpq
      · rintro rfl
        exact Option.some.inj (hl.symm.trans hself)
    | none =>
      rw [exprNew_miss hl]
      show (exprNew s k1).2.next = (exprNew s k1).1 ↔ k2 = k1
      constructor
      · intro heq
        have hlt := hwf1.1 _ hmem1
        dsimp only at hlt
        omega
      · rintro rfl
        rw [hl] at hself
        exact absurd hself (by simp)

/-- Witness for C1 at the empty cache with the keys `x` and `y`. -/
theorem claim_C1_interning_witness :
    InternWF ⟨[], 0⟩ ∧
    ((exprNew (exprNew ⟨[], 0⟩ x).2 x).1 = (exprNew ⟨[], 0⟩ x).1 ∧
      ((exprNew (exprNew ⟨[], 0⟩ x).2 y).1 = (exprNew ⟨[], 0⟩ x).1 ↔ y = x)) :=
  ⟨by decide, claim_C1_interning ⟨[], 0⟩ x y (by decide)⟩

/-- C2: Graph-vs-tree operation counting: starting from `x**2 + x` and
applying `e = e**2 + e` ten times, `count_ops_graph` returns exactly 24
and `count_ops_tree` exactly 8189; after twenty repetitions they return
exactly 44 and 8388605.  `count_ops_graph` is the number of distinct
canonical nodes reachable from the root, and `count_ops_tree` satisfies
`total = 1 + sum of child totals`. -/
theorem claim_C2_count_ops :
    count_ops_graph (makeExpression 10) = 24 ∧
    count_ops_tree (makeExpression 10) = 8189 ∧
    count_ops_graph (makeExpression 20) = 44 ∧
    count_ops_tree (makeExpression 20) = 8388605 ∧
    (∀ head args, count_ops_tree (TreeExpr.call head args) =
      1 + (args.map count_ops_tree).sum) ∧
    (∀ e : TreeExpr, count_ops_graph e = (reach e).card) := by
  refine ⟨?_, ?_, ?_, ?_, ?_, fun e => rfl⟩
  · rw [count_ops_graph_makeExpression]
  · rw [count_ops_tree_makeExpression]; norm_num
  · rw [count_ops_graph_makeExpression]
  · rw [count_ops_tree_makeExpression]; norm_num
  · intro head args
    rw [count_ops_tree, sumTree_eq_map_sum]

/-- C4: No automatic simplification: `x - x` constructs exactly the
canonical node `Add(x, Mul(-1, x))` — a call node, not the zero atom —
and its equality comparison against the zero expression is false. -/
theorem claim_C4_no_auto_simplify :
    exprSub x x = applyE Add [x, applyE Mul [negone, x]] ∧
    exprSub x x ≠ zero ∧
    TreeExpr.isCall (exprSub x x) = true :=
  ⟨rfl, by decide, rfl⟩

/-- C5: Differentiation postconditions in unreduced form:
`diff(sin(x), x)` is exactly `cos(x)`; `diff(cos(x), x)` is exactly
`Mul(-1, sin(x))`; `diff(x**3, x)` is a power expression whose exponent
is the literal unevaluated `Add(3, -1)`, which is not the pre-computed
`Integer 2` — each asserted by structural identity of canonical nodes. -/
theorem claim_C5_differentiation :
    diffTree x (applyE sin [x]) = .ok (applyE cos [x]) ∧
    diffTree x (applyE cos [x]) = .ok (applyE Mul [negone, applyE sin [x]]) ∧
    diffTree x (exprPow x (Integer 3)) =
      .ok (applyE Mul [Integer 3,
        applyE Pow [x, applyE Add [Integer 3, negone]]]) ∧
    applyE Add [Integer 3, negone] ≠ Integer 2 :=
  ⟨by decide, by decide, by decide, by decide⟩

/-- C6: Foreign-system round-trip: for every expression built only from
the supported constructs (`Integer`, `Symbol`, `Function` atoms and
`sin`, `cos`, `Pow`, `Add`, `Mul` heads), exporting with `to_sympy` and
re-importing with `from_sympy` yields the identical canonical node;
importing a foreign construct with no mapping raises the
unsupported-conversion error naming the offending value. -/
theorem claim_C6_sympy_roundtrip (e : TreeExpr) (he : Supported e)
    (name : String) :
    (∃ s, to_sympy e = .ok s ∧ from_sympy s = .ok e) ∧
    from_sympy (.sUnsupported name) = .error (.unsupported name) :=
  ⟨roundtrip_supported e he, rfl⟩

/-- Witness for C6 at `sin(x)` and the unsupported construct `li`. -/
theorem claim_C6_sympy_roundtrip_witness :
    Supported (applyE sin [x]) ∧
    ((∃ s, to_sympy (applyE sin [x]) = .ok s ∧
        from_sympy s = .ok (applyE sin [x])) ∧
      from_sympy (.sUnsupported "li") = .error (.unsupported "li")) :=
  ⟨Supported.sinA x (Supported.sym "x"),
    claim_C6_sympy_roundtrip (applyE sin [x])
      (Supported.sinA x (Supported.sym "x")) "li"⟩

/-- C7: Dispatch completeness: for every evaluator and every tree that
contains (in evaluated position) a call node whose head has no
registered handler, evaluation — with any substitution and with every
leaf covered — always fails with an unhandled-head error and never
returns a default or fallback value. -/
theorem claim_C7_dispatch_completeness {R : Type} (ev : Evaluator R)
    (vals : List (TreeExpr × R)) (e : TreeExpr)
    (hatoms : ∀ c ∈ reach e, atomCoveredNode ev vals c = true)
    (hbad : ∃ c ∈ reach e, isUnhandledCall ev c = true) :
    ∃ head, evalTree ev vals e = .error (.unhandledHead head) := by
  obtain ⟨c, hc, hun⟩ := hbad
  cases hres : evalTree ev vals e with
  | ok r => exact absurd hres (evalTree_unhandled_not_ok ev vals e c hc hun r)
  | error err =>
    obtain ⟨head, rfl⟩ :=
      evalTree_error_unhandledHead ev vals e (fun a ha => hatoms _ ha) err hres
    exact ⟨head, rfl⟩

/-- Witness for C7: rendering `f(x)` for the undeclared function `f`
through the plain-text evaluator fails with an unhandled-head error. -/
theorem claim_C7_dispatch_completeness_witness :
    (∀ c ∈ reach (applyE (Function "f") [x]),
      atomCoveredNode eval_repr [] c = true) ∧
    (∃ c ∈ reach (applyE (Function "f") [x]),
      isUnhandledCall eval_repr c = true) ∧
    (∃ head, evalTree eval_repr [] (applyE (Function "f") [x]) =
      .error (.unhandledHead head)) :=
  ⟨by decide, by decide,
    claim_C7_dispatch_completeness eval_repr [] (applyE (Function "f") [x])
      (by decide) (by decide)⟩

/-- C8: Operand coercion with symmetric retry: every binary operator on
a facade value coerces a non-facade operand through `expressify` (which
accepts arbitrary-precision integers); coercion failure makes the
method signal `NotImplemented` so the reflected operand order is tried,
and a user-visible `TypeError` arises iff neither order succeeds — e.g.
`x + 2` equals `Add(x, Integer(2))` while `x + ()` raises `TypeError`. -/
theorem claim_C8_operator_coercion (fwd : TreeExpr → TreeExpr → TreeExpr)
    (a b : Operand) (e : TreeExpr) (n : Int) :
    expressify (.int n) = .ok (Integer n) ∧
    dunderMethod fwd (.expr e) (.int n) = some (fwd e (Integer n)) ∧
    (pyBinop fwd a b = none ↔
      dunderMethod fwd a b = none ∧ dunderRMethod fwd b a = none) ∧
    pyBinop exprAdd (.expr x) (.int 2) = some (exprAdd x (Integer 2)) ∧
    pyBinop exprAdd (.int 2) (.expr x) = some (exprAdd (Integer 2) x) ∧
    pyBinop exprAdd (.expr x) (.other "tuple") = none := by
  refine ⟨rfl, rfl, ?_, rfl, rfl, rfl⟩
  unfold pyBinop
  cases dunderMethod fwd a b with
  | some r => simp
  | none => simp

/-- C9 counterexample: unary plus does not build a new call node:
`+x` is `x` itself, an atom and not a call node, refuting the claim
that every exposed operator, unary plus included, builds a new
`Add`/`Mul`/`Pow` call node. -/
theorem claim_C9_counterexample :
    exprPos x = x ∧ TreeExpr.isCall (exprPos x) = false :=
  ⟨rfl, rfl⟩

/-- C9 (amended): each binary operator `+ - * / **` and unary minus
returns a facade value wrapping a new canonical `Add`, `Mul` or `Pow`
call node; unary plus instead returns the value itself unchanged
(`__pos__` is `return self`). -/
theorem claim_C9_operators_build_call_nodes (a b : TreeExpr) :
    (∃ args, exprAdd a b = applyE Add args) ∧
    (∃ args, exprSub a b = applyE Add args) ∧
    (∃ args, exprMul a b = applyE Mul args) ∧
    (∃ args, exprDiv a b = applyE Mul args) ∧
    (∃ args, exprPow a b = applyE Pow args) ∧
    (∃ args, exprNeg a = applyE Mul args) ∧
    exprPos a = a :=
  ⟨⟨[a, b], rfl⟩, ⟨[a, applyE Mul [negone, b]], rfl⟩, ⟨[a, b], rfl⟩,
    ⟨[a, applyE Pow [b, negone]], rfl⟩, ⟨[a, b], rfl⟩, ⟨[negone, a], rfl⟩, rfl⟩

/-- C10: there is no dedicated division head: for facade values and for
coercible integers in either position, `a / b` is the canonical
expression `Mul(a, Pow(b, -1))`, and the reflected integer case
`n / a` is `Mul(n, Pow(a, -1))`. -/
theorem claim_C10_division (a b : TreeExpr) (n : Int) :
    pyBinop exprDiv (.expr a) (.expr b) =
      some (applyE Mul [a, applyE Pow [b, negone]]) ∧
    pyBinop exprDiv (.expr a) (.int n) =
      some (applyE Mul [a, applyE Pow [Integer n, negone]]) ∧
    pyBinop exprDiv (.int n) (.expr a) =
      some (applyE Mul [Integer n, applyE Pow [a, negone]]) :=
  ⟨rfl, rfl, rfl⟩

end Protosym

